import Mathlib

/-!
Verification of the `completer` ternary-search-trie library
(src/trie-completer.js) against its specification.

Strings are modelled as `List Char`; JavaScript's `null` child pointers are
the `Node.null` constructor; the JS field `isCompletion`, which only ever
holds `null` (its initial value) or `true`, is modelled as `Option Bool`
(`none` = JS `null`); values returned by `contains` live in `Option Bool`
as well (`some true` = `true`, `some false` = `false`, `none` = `null`).
The unused JS field `completion` (never written after its `null` initializer)
is omitted.
-/

namespace Completer

/-- JavaScript truthiness of the three values (`true`, `false`, `null`) that
`node.isCompletion` and `contains` can produce. -/
def isTruthy : Option Bool → Bool
  | none => false
  | some b => b

/-- A trie node.  `Node.null` models the JS `null` pointer; `Node.mk`
models `new Node()` after its fields are populated: character `c`,
children `left`, `mid`, `right`, and the `isCompletion` marker. -/
inductive Node : Type where
  | null : Node
  | mk (c : Char) (left mid right : Node) (isCompletion : Option Bool) : Node
deriving DecidableEq

/-- The completer object: `this.root` (initially the JS `undefined`,
modelled as `Node.null`, which `_get`/`_put` treat identically) and
`this.size`. -/
structure Trie where
  root : Node
  size : Nat
deriving DecidableEq

/-- The trie state before any insertion: no root, `size = 0`. -/
def emptyTrie : Trie := ⟨Node.null, 0⟩

/-- The `!node` branch of `_put`: `new Node()` receives character
`c = completion[d]`, after which `c == node.c` holds, so the JS code falls
into the `d < completion.length - 1` test — it either grows a fresh `mid`
chain from the remaining characters (recursing as `_put(null, completion, d+1)`)
or marks the new node as a completion. -/
def putNew (c : Char) (rest : List Char) : Node :=
  match rest with
  | [] => Node.mk c Node.null Node.null Node.null (some true)
  | c2 :: rest2 => Node.mk c Node.null (putNew c2 rest2) Node.null none

/-- `_put(node, completion, d)` from the source, de-indexed: the pair
`(completion, d)` is passed as `c = completion[d]` plus
`rest = completion[d+1..]`, so the JS test `d < completion.length - 1`
becomes `rest ≠ []` and `_put(node.mid, completion, d+1)` becomes a call on
`rest`'s head and tail.  Empty-string insertion is undefined behavior per
the spec (§9) and is excluded by every claim, so `_put` is only ever applied
to a non-empty string split into head `c` and tail `rest`. -/
def _put (node : Node) (c : Char) (rest : List Char) : Node :=
  match node with
  | Node.null => putNew c rest
  | Node.mk nc left mid right isCompletion =>
    if c < nc then Node.mk nc (_put left c rest) mid right isCompletion
    else if nc < c then Node.mk nc left mid (_put right c rest) isCompletion
    else
      match rest with
      | [] => Node.mk nc left mid right (some true)
      | c2 :: rest2 => Node.mk nc left (_put mid c2 rest2) right isCompletion

/-- `_get(node, prefix, d)` from the source, with `(prefix, d)` represented
by the list of not-yet-consumed characters.  The empty-list branch models the
JS behavior at `d ≥ prefix.length` (only reachable when the original prefix
is empty): `prefix[d]` is `undefined`, both `<` and `>` comparisons against
it are false, and `d < prefix.length - 1` is false (`0 < -1`), so the
function returns the current node unchanged. -/
def _get (node : Node) (pre : List Char) : Node :=
  match node, pre with
  | Node.null, _ => Node.null
  | Node.mk nc left mid right isCompletion, [] =>
      Node.mk nc left mid right isCompletion
  | Node.mk nc left mid right isCompletion, ch :: rest =>
    if ch < nc then _get left (ch :: rest)
    else if nc < ch then _get right (ch :: rest)
    else
      match rest with
      | [] => Node.mk nc left mid right isCompletion
      | _ :: _ => _get mid rest

/-- `this.contains(completion)`: `_get` from the root, `false` when no node
is found, otherwise the found node's raw `isCompletion` value (which may be
the JS `null`, i.e. `none`). -/
def contains (t : Trie) (completion : List Char) : Option Bool :=
  match _get t.root completion with
  | Node.null => some false
  | Node.mk _ _ _ _ isCompletion => isCompletion

/-- `this.addCompletion(completion)`: bump `size` when `!this.contains(...)`
(i.e. when `contains` returns a falsy value — `false` or `null`), then
re-root at `_put(this.root, completion, 0)`.  As in `_put`, the empty string
is undefined behavior (spec §9), excluded by every claim; it is modelled as
a no-op. -/
def addCompletion (t : Trie) (completion : List Char) : Trie :=
  match completion with
  | [] => t
  | c :: rest =>
    { root := _put t.root c rest
      size := if isTruthy (contains t completion) then t.size else t.size + 1 }

/-- The guard `limit && completions.length == limit` of `collectCompletions`:
an absent limit is `undefined` (falsy) and a limit of `0` is also falsy in
JS, so neither ever stops the traversal. -/
def jsLimitHit (limit : Option Nat) (len : Nat) : Bool :=
  match limit with
  | none => false
  | some k => k != 0 && len == k

/-- `collectCompletions(node, prefix, completions, limit)` from the source,
with the accumulator array passed and returned functionally.  The source
pushes the current node's completion `prefix + node.c` BEFORE recursing into
`left`, then visits `left`, `mid` (with the extended prefix), and `right`.
The JS guards `if (node.left)` etc. are dropped because calling this
function on `Node.null` returns the accumulator unchanged, which is
exactly what not calling it does. -/
def collectCompletions (node : Node) (pre : List Char)
    (completions : List (List Char)) (limit : Option Nat) : List (List Char) :=
  match node with
  | Node.null => completions
  | Node.mk c left mid right isCompletion =>
    if jsLimitHit limit completions.length then completions
    else
      let cs1 := if isTruthy isCompletion then completions ++ [pre ++ [c]]
                 else completions
      let cs2 := collectCompletions left pre cs1 limit
      let cs3 := collectCompletions mid (pre ++ [c]) cs2 limit
      collectCompletions right pre cs3 limit

/-- `this.getCompletions(prefix, limit)`: empty prefix (JS falsy `""`)
yields `[]`; otherwise descend with `_get`, seed the result array with the
prefix itself when the prefix node is marked, and collect from the prefix
node's `mid` child if there is one. -/
def getCompletions (t : Trie) (pre : List Char) (limit : Option Nat) :
    List (List Char) :=
  if pre = [] then []
  else
    match _get t.root pre with
    | Node.null => []
    | Node.mk _ _ mid _ isCompletion =>
      let completions := if isTruthy isCompletion then [pre] else []
      match mid with
      | Node.null => completions
      | _ => collectCompletions mid pre completions limit

/-- The constructor `_constructor` inserts `completions[i]` via
`this.addCompletion` for a uniformly random permutation of the indices
(`getRandomIndex` samples without replacement until every index is used).
The permutation is a run-time random choice, so the embedding takes the
actual insertion sequence as the argument: a trie "built by construction"
from input `I` is `buildFrom l` for some permutation `l` of `I`, and
further `addCompletion` calls extend the fold. -/
def buildFrom (l : List (List Char)) : Trie := l.foldl addCompletion emptyTrie

/-- Whether a node exists and carries `isCompletion = true`. -/
def isComplete : Node → Bool
  | Node.null => false
  | Node.mk _ _ _ _ isCompletion => isCompletion == some true

/-- Number of nodes in a (sub)tree whose `isCompletion` flag is `true`. -/
def completionCount : Node → Nat
  | Node.null => 0
  | Node.mk _ left mid right isCompletion =>
      (if isCompletion == some true then 1 else 0) +
        completionCount left + completionCount mid + completionCount right

/-- All characters on the left/right (same-depth) spine of a subtree satisfy
`p`; `mid` children start a new depth and are not constrained. -/
def allBST (p : Char → Bool) : Node → Bool
  | Node.null => true
  | Node.mk c left _ right _ => p c && allBST p left && allBST p right

/-- The binary-search ordering invariant of the spec: at every node, every
character reachable through `left` without crossing a `mid` edge is strictly
smaller than the node's character, every one reachable through `right` is
strictly greater, and the invariant holds recursively in all three
subtrees. -/
def bstOk : Node → Bool
  | Node.null => true
  | Node.mk c left mid right _ =>
      allBST (fun x => decide (x < c)) left &&
      allBST (fun x => decide (c < x)) right &&
      bstOk left && bstOk mid && bstOk right

/-- Reachable tries never hold `isCompletion = false`: the field starts as
the JS `null` and is only ever overwritten with `true`. -/
def flagsOK : Node → Bool
  | Node.null => true
  | Node.mk _ left mid right isCompletion =>
      isCompletion != some false && flagsOK left && flagsOK mid && flagsOK right

/-- The full (unlimited) depth-first collection over a subtree, in the
exact order `collectCompletions` pushes: the node's own completion first,
then the left, mid and right subtrees. -/
def collectAll (node : Node) (pre : List Char) : List (List Char) :=
  match node with
  | Node.null => []
  | Node.mk c left mid right isCompletion =>
    (if isTruthy isCompletion then [pre ++ [c]] else []) ++
      collectAll left pre ++ collectAll mid (pre ++ [c]) ++ collectAll right pre

theorem isTruthy_eq (f : Option Bool) : isTruthy f = (f == some true) := by
  cases f with
  | none => rfl
  | some b => cases b <;> rfl

theorem collect_mk (c : Char) (l m r : Node) (f : Option Bool)
    (pre : List Char) (acc : List (List Char)) (lim : Option Nat) :
    collectCompletions (Node.mk c l m r f) pre acc lim =
      if jsLimitHit lim acc.length then acc
      else
        collectCompletions r pre
          (collectCompletions m (pre ++ [c])
            (collectCompletions l pre
              (if isTruthy f then acc ++ [pre ++ [c]] else acc) lim) lim) lim := by
  rfl

theorem take_append_take {α : Type} (X Y : List α) (k : Nat) :
    ((X.take k) ++ Y).take k = (X ++ Y).take k := by
  rcases le_or_lt X.length k with h | h
  · rw [List.take_of_length_le h]
  · rw [List.take_append_eq_append_take, List.take_append_eq_append_take,
      List.take_take, List.length_take]
    have h1 : min k X.length = k := by omega
    have h2 : k - X.length = 0 := by omega
    have h3 : min k k = k := by omega
    rw [h1, h2, h3, Nat.sub_self]

theorem collect_none_eq (node : Node) :
    ∀ (pre : List Char) (acc : List (List Char)),
      collectCompletions node pre acc none = acc ++ collectAll node pre := by
  induction node with
  | null => intro pre acc; simp [collectCompletions, collectAll]
  | mk c l m r f ihl ihm ihr =>
    intro pre acc
    rw [collect_mk, ihl, ihm, ihr, collectAll]
    have hhit : jsLimitHit none acc.length = false := rfl
    rw [hhit]
    cases isTruthy f <;> simp [List.append_assoc]

theorem collect_some_eq (node : Node) :
    ∀ (pre : List Char) (acc : List (List Char)) (k : Nat), k ≠ 0 →
      acc.length ≤ k →
      collectCompletions node pre acc (some k) =
        (acc ++ collectAll node pre).take k := by
  induction node with
  | null =>
    intro pre acc k hk hlen
    simp [collectCompletions, collectAll, List.take_of_length_le hlen]
  | mk c l m r f ihl ihm ihr =>
    intro pre acc k hk hlen
    rw [collect_mk]
    by_cases hhit : acc.length = k
    · have h1 : jsLimitHit (some k) acc.length = true := by
        simp [jsLimitHit, hk, hhit]
      rw [h1, if_pos rfl, List.take_append_eq_append_take, hhit, Nat.sub_self,
        List.take_zero, List.append_nil, List.take_of_length_le (le_of_eq hhit)]
    · have hlt : acc.length < k := lt_of_le_of_ne hlen hhit
      have h1 : jsLimitHit (some k) acc.length = false := by
        simp [jsLimitHit, hhit]
      rw [h1, if_neg (by simp)]
      have hcs1 : (if isTruthy f then acc ++ [pre ++ [c]] else acc).length ≤ k := by
        cases isTruthy f <;> simp <;> omega
      rw [ihl pre _ k hk hcs1,
        ihm (pre ++ [c]) _ k hk (by rw [List.length_take]; omega),
        ihr pre _ k hk (by rw [List.length_take]; omega), collectAll]
      cases isTruthy f <;> simp [take_append_take, List.append_assoc]

theorem collect_zero_eq (node : Node) :
    ∀ (pre : List Char) (acc : List (List Char)),
      collectCompletions node pre acc (some 0) =
        collectCompletions node pre acc none := by
  induction node with
  | null => intro pre acc; rfl
  | mk c l m r f ihl ihm ihr =>
    intro pre acc
    rw [collect_mk, collect_mk]
    have h0 : jsLimitHit (some 0) acc.length = false := rfl
    have h1 : jsLimitHit none acc.length = false := rfl
    rw [h0, h1, ihl, ihm, ihr]

theorem getCompletions_none_eq (t : Trie) (pre : List Char) (hp : pre ≠ []) :
    getCompletions t pre none =
      (match _get t.root pre with
       | Node.null => []
       | Node.mk _ _ mid _ f =>
         (if isTruthy f then [pre] else []) ++ collectAll mid pre) := by
  rw [getCompletions, if_neg hp]
  cases hg : _get t.root pre with
  | null => rfl
  | mk c l m r f =>
    cases m with
    | null => simp [collectAll]
    | mk mc ml mm mr mf => exact collect_none_eq _ pre _

theorem getCompletions_some_eq (t : Trie) (pre : List Char) (k : Nat)
    (hk : 1 ≤ k) :
    getCompletions t pre (some k) = (getCompletions t pre none).take k := by
  by_cases hp : pre = []
  · simp [getCompletions, hp]
  · rw [getCompletions_none_eq t pre hp, getCompletions, if_neg hp]
    cases hg : _get t.root pre with
    | null =>
      show ([] : List (List Char)) = List.take k ([] : List (List Char))
      rw [List.take_nil]
    | mk c l m r f =>
      have hlen : (if isTruthy f then [pre] else []).length ≤ k := by
        cases isTruthy f <;> simp
        omega
      cases m with
      | null =>
        show (if isTruthy f then [pre] else []) =
          List.take k ((if isTruthy f then [pre] else []) ++ ([] : List (List Char)))
        rw [List.append_nil, List.take_of_length_le hlen]
      | mk mc ml mm mr mf =>
        exact collect_some_eq _ pre _ k (by omega) hlen

theorem putNew_nil (c : Char) :
    putNew c [] = Node.mk c Node.null Node.null Node.null (some true) := rfl

theorem putNew_cons (c c2 : Char) (rest2 : List Char) :
    putNew c (c2 :: rest2) =
      Node.mk c Node.null (putNew c2 rest2) Node.null none := rfl

theorem get_mk (nc : Char) (l m r : Node) (f : Option Bool) (ch : Char)
    (rest : List Char) :
    _get (Node.mk nc l m r f) (ch :: rest) =
      if ch < nc then _get l (ch :: rest)
      else if nc < ch then _get r (ch :: rest)
      else
        match rest with
        | [] => Node.mk nc l m r f
        | _ :: _ => _get m rest := rfl

theorem put_mk (nc : Char) (l m r : Node) (f : Option Bool) (c : Char)
    (rest : List Char) :
    _put (Node.mk nc l m r f) c rest =
      if c < nc then Node.mk nc (_put l c rest) m r f
      else if nc < c then Node.mk nc l m (_put r c rest) f
      else
        match rest with
        | [] => Node.mk nc l m r (some true)
        | c2 :: rest2 => Node.mk nc l (_put m c2 rest2) r f := rfl

theorem get_null (pre : List Char) : _get Node.null pre = Node.null := rfl

theorem isComplete_null : isComplete Node.null = false := rfl

theorem isComplete_mk (c : Char) (l m r : Node) (f : Option Bool) :
    isComplete (Node.mk c l m r f) = (f == some true) := rfl

theorem getNew_self : ∀ (rest : List Char) (c : Char),
    isComplete (_get (putNew c rest) (c :: rest)) = true := by
  intro rest
  induction rest with
  | nil => intro c; simp [putNew_nil, get_mk, isComplete]
  | cons c2 rest2 ih => intro c; simp [putNew_cons, get_mk, ih]

theorem get_put_self (node : Node) : ∀ (c : Char) (rest : List Char),
    isComplete (_get (_put node c rest) (c :: rest)) = true := by
  induction node with
  | null => intro c rest; exact getNew_self rest c
  | mk nc l m r f ihl ihm ihr =>
    intro c rest
    rcases lt_trichotomy c nc with hlt | heq | hgt
    · simp [put_mk, get_mk, hlt, ihl]
    · subst heq
      cases rest with
      | nil => simp [put_mk, get_mk, isComplete]
      | cons c2 rest2 => simp [put_mk, get_mk, ihm]
    · simp [put_mk, get_mk, hgt, lt_asymm hgt, ihr]

theorem getNew_other : ∀ (rest : List Char) (c c' : Char) (rest' : List Char),
    ¬(c' :: rest' = c :: rest) →
    isComplete (_get (putNew c rest) (c' :: rest')) = false := by
  intro rest
  induction rest with
  | nil =>
    intro c c' rest' hne
    rcases lt_trichotomy c' c with hlt | heq | hgt
    · simp [putNew_nil, get_mk, hlt, get_null, isComplete_null]
    · subst heq
      cases rest' with
      | nil => exact absurd rfl hne
      | cons d rs => simp [putNew_nil, get_mk, get_null, isComplete_null]
    · simp [putNew_nil, get_mk, hgt, lt_asymm hgt, get_null, isComplete_null]
  | cons c2 rest2 ih =>
    intro c c' rest' hne
    rcases lt_trichotomy c' c with hlt | heq | hgt
    · simp [putNew_cons, get_mk, hlt, get_null, isComplete_null]
    · subst heq
      cases rest' with
      | nil => simp [putNew_cons, get_mk, isComplete_mk]
      | cons d rs =>
        have hne2 : ¬(d :: rs = c2 :: rest2) := fun h => hne (by rw [h])
        simp [putNew_cons, get_mk, ih c2 d rs hne2]
    · simp [putNew_cons, get_mk, hgt, lt_asymm hgt, get_null, isComplete_null]

theorem get_put_frame (node : Node) :
    ∀ (c : Char) (rest : List Char) (c' : Char) (rest' : List Char),
      ¬(c' :: rest' = c :: rest) →
      isComplete (_get (_put node c rest) (c' :: rest')) =
        isComplete (_get node (c' :: rest')) := by
  induction node with
  | null =>
    intro c rest c' rest' hne
    show isComplete (_get (putNew c rest) (c' :: rest')) = isComplete Node.null
    rw [getNew_other rest c c' rest' hne]
    rfl
  | mk nc l m r f ihl ihm ihr =>
    intro c rest c' rest' hne
    rcases lt_trichotomy c nc with hlt | heq | hgt
    · rcases lt_trichotomy c' nc with hlt' | heq' | hgt'
      · simp [put_mk, get_mk, hlt, hlt', ihl c rest c' rest' hne]
      · cases rest' <;> simp [put_mk, get_mk, hlt, heq', isComplete_mk]
      · simp [put_mk, get_mk, hlt, hgt', lt_asymm hgt']
    · subst heq
      rcases lt_trichotomy c' c with hlt' | heq' | hgt'
      · cases rest <;> simp [put_mk, get_mk, hlt']
      · cases rest with
        | nil =>
          cases rest' with
          | nil => exact absurd (by rw [heq']) hne
          | cons d rs => simp [put_mk, get_mk, heq']
        | cons c2 rest2 =>
          cases rest' with
          | nil => simp [put_mk, get_mk, heq', isComplete_mk]
          | cons d rs =>
            have hne2 : ¬(d :: rs = c2 :: rest2) := fun h =>
              hne (by rw [heq', h])
            simp [put_mk, get_mk, heq', ihm c2 rest2 d rs hne2]
      · cases rest <;> simp [put_mk, get_mk, hgt', lt_asymm hgt']
    · rcases lt_trichotomy c' nc with hlt' | heq' | hgt'
      · simp [put_mk, get_mk, hgt, lt_asymm hgt, hlt']
      · cases rest' <;>
          simp [put_mk, get_mk, hgt, lt_asymm hgt, heq', isComplete_mk]
      · simp [put_mk, get_mk, hgt, lt_asymm hgt, hgt', lt_asymm hgt',
          ihr c rest c' rest' hne]

theorem put_of_complete (node : Node) : ∀ (c : Char) (rest : List Char),
    isComplete (_get node (c :: rest)) = true → _put node c rest = node := by
  induction node with
  | null => intro c rest h; exact absurd h (by simp [_get, isComplete])
  | mk nc l m r f ihl ihm ihr =>
    intro c rest h
    rcases lt_trichotomy c nc with hlt | heq | hgt
    · rw [get_mk, if_pos hlt] at h
      simp [put_mk, hlt, ihl c rest h]
    · subst heq
      cases rest with
      | nil =>
        rw [get_mk, if_neg (lt_irrefl c), if_neg (lt_irrefl c)] at h
        have hf : f = some true := by
          simpa [isComplete] using h
        simp [put_mk, hf]
      | cons c2 rest2 =>
        rw [get_mk, if_neg (lt_irrefl c), if_neg (lt_irrefl c)] at h
        simp [put_mk, ihm c2 rest2 h]
    · rw [get_mk, if_neg (lt_asymm hgt), if_pos hgt] at h
      simp [put_mk, hgt, lt_asymm hgt, ihr c rest h]

theorem put_null (c : Char) (rest : List Char) :
    _put Node.null c rest = putNew c rest := rfl

theorem countNew : ∀ (rest : List Char) (c : Char),
    completionCount (putNew c rest) = 1 := by
  intro rest
  induction rest with
  | nil => intro c; rfl
  | cons c2 rest2 ih => intro c; simp [putNew_cons, completionCount, ih]

theorem completionCount_put (node : Node) : ∀ (c : Char) (rest : List Char),
    completionCount (_put node c rest) =
      completionCount node +
        (if isComplete (_get node (c :: rest)) then 0 else 1) := by
  induction node with
  | null =>
    intro c rest
    simp [put_null, get_null, isComplete_null, completionCount, countNew rest c]
  | mk nc l m r f ihl ihm ihr =>
    intro c rest
    rcases lt_trichotomy c nc with hlt | heq | hgt
    · simp [put_mk, get_mk, hlt, completionCount, ihl c rest]
      omega
    · subst heq
      cases rest with
      | nil =>
        rcases hf : f with _ | b
        · simp [put_mk, get_mk, completionCount, isComplete_mk]
          omega
        · cases b
          · simp [put_mk, get_mk, completionCount, isComplete_mk]
            omega
          · simp [put_mk, get_mk, completionCount, isComplete_mk]
      | cons c2 rest2 =>
        simp [put_mk, get_mk, completionCount, ihm c2 rest2]
        omega
    · simp [put_mk, get_mk, hgt, lt_asymm hgt, completionCount, ihr c rest]
      omega

theorem allBST_putNew (p : Char → Bool) (c : Char) (rest : List Char)
    (hc : p c = true) : allBST p (putNew c rest) = true := by
  cases rest with
  | nil => simp [putNew_nil, allBST, hc]
  | cons c2 rest2 => simp [putNew_cons, allBST, hc]

theorem allBST_put (node : Node) : ∀ (p : Char → Bool) (c : Char)
    (rest : List Char), allBST p node = true → p c = true →
    allBST p (_put node c rest) = true := by
  induction node with
  | null => intro p c rest _ hc; exact allBST_putNew p c rest hc
  | mk nc l m r f ihl ihm ihr =>
    intro p c rest hall hc
    simp only [allBST, Bool.and_eq_true] at hall
    rcases lt_trichotomy c nc with hlt | heq | hgt
    · simp [put_mk, hlt, allBST, hall.1.1, hall.2,
        ihl p c rest hall.1.2 hc]
    · subst heq
      cases rest with
      | nil => simp [put_mk, allBST, hall.1.1, hall.1.2, hall.2]
      | cons c2 rest2 => simp [put_mk, allBST, hall.1.1, hall.1.2, hall.2]
    · simp [put_mk, hgt, lt_asymm hgt, allBST, hall.1.1, hall.1.2,
        ihr p c rest hall.2 hc]

theorem bstOk_putNew : ∀ (rest : List Char) (c : Char),
    bstOk (putNew c rest) = true := by
  intro rest
  induction rest with
  | nil => intro c; rfl
  | cons c2 rest2 ih => intro c; simp [putNew_cons, bstOk, allBST, ih]

theorem bstOk_put (node : Node) : ∀ (c : Char) (rest : List Char),
    bstOk node = true → bstOk (_put node c rest) = true := by
  induction node with
  | null => intro c rest _; exact bstOk_putNew rest c
  | mk nc l m r f ihl ihm ihr =>
    intro c rest hok
    simp only [bstOk, Bool.and_eq_true] at hok
    obtain ⟨⟨⟨⟨hal, har⟩, hbl⟩, hbm⟩, hbr⟩ := hok
    rcases lt_trichotomy c nc with hlt | heq | hgt
    · simp [put_mk, hlt, bstOk, hal, har, hbm, hbr, ihl c rest hbl,
        allBST_put l _ c rest hal (by simp [hlt])]
    · subst heq
      cases rest with
      | nil => simp [put_mk, bstOk, hal, har, hbl, hbm, hbr]
      | cons c2 rest2 =>
        simp [put_mk, bstOk, hal, har, hbl, hbr, ihm c2 rest2 hbm]
    · simp [put_mk, hgt, lt_asymm hgt, bstOk, hal, har, hbl, hbm,
        ihr c rest hbr, allBST_put r _ c rest har (by simp [hgt])]

theorem flagsOK_putNew : ∀ (rest : List Char) (c : Char),
    flagsOK (putNew c rest) = true := by
  intro rest
  induction rest with
  | nil => intro c; rfl
  | cons c2 rest2 ih => intro c; simp [putNew_cons, flagsOK, ih]

theorem flagsOK_put (node : Node) : ∀ (c : Char) (rest : List Char),
    flagsOK node = true → flagsOK (_put node c rest) = true := by
  induction node with
  | null => intro c rest _; exact flagsOK_putNew rest c
  | mk nc l m r f ihl ihm ihr =>
    intro c rest hok
    simp only [flagsOK, Bool.and_eq_true] at hok
    obtain ⟨⟨⟨hf, hl⟩, hm⟩, hr⟩ := hok
    rcases lt_trichotomy c nc with hlt | heq | hgt
    · simp [put_mk, hlt, flagsOK, hf, hm, hr, ihl c rest hl]
    · subst heq
      cases rest with
      | nil => simp [put_mk, flagsOK, hl, hm, hr]
      | cons c2 rest2 => simp [put_mk, flagsOK, hf, hl, hr, ihm c2 rest2 hm]
    · simp [put_mk, hgt, lt_asymm hgt, flagsOK, hf, hl, hm, ihr c rest hr]

theorem isTruthy_contains (t : Trie) (s : List Char) :
    isTruthy (contains t s) = isComplete (_get t.root s) := by
  rw [contains]
  cases _get t.root s with
  | null => rfl
  | mk c l m r f => rw [isComplete_mk, isTruthy_eq]

theorem contains_true_iff (t : Trie) (s : List Char) :
    contains t s = some true ↔ isComplete (_get t.root s) = true := by
  rw [contains]
  cases _get t.root s with
  | null => simp [isComplete_null]
  | mk c l m r f => simp [isComplete_mk]

theorem bstOk_get (node : Node) : ∀ (pre : List Char), bstOk node = true →
    bstOk (_get node pre) = true := by
  induction node with
  | null => intro pre _; simp [get_null, bstOk]
  | mk nc l m r f ihl ihm ihr =>
    intro pre hok
    have hok' := hok
    simp only [bstOk, Bool.and_eq_true] at hok'
    obtain ⟨⟨⟨⟨hal, har⟩, hbl⟩, hbm⟩, hbr⟩ := hok'
    cases pre with
    | nil => exact hok
    | cons ch rest =>
      rcases lt_trichotomy ch nc with hlt | heq | hgt
      · rw [get_mk, if_pos hlt]; exact ihl (ch :: rest) hbl
      · subst heq
        cases rest with
        | nil =>
          rw [get_mk, if_neg (lt_irrefl ch), if_neg (lt_irrefl ch)]
          exact hok
        | cons d rs =>
          rw [get_mk, if_neg (lt_irrefl ch), if_neg (lt_irrefl ch)]
          exact ihm (d :: rs) hbm
      · rw [get_mk, if_neg (lt_asymm hgt), if_pos hgt]
        exact ihr (ch :: rest) hbr

theorem flagsOK_get (node : Node) : ∀ (pre : List Char), flagsOK node = true →
    flagsOK (_get node pre) = true := by
  induction node with
  | null => intro pre _; simp [get_null, flagsOK]
  | mk nc l m r f ihl ihm ihr =>
    intro pre hok
    have hok' := hok
    simp only [flagsOK, Bool.and_eq_true] at hok'
    obtain ⟨⟨⟨hf, hl⟩, hm⟩, hr⟩ := hok'
    cases pre with
    | nil => exact hok
    | cons ch rest =>
      rcases lt_trichotomy ch nc with hlt | heq | hgt
      · rw [get_mk, if_pos hlt]; exact ihl (ch :: rest) hl
      · subst heq
        cases rest with
        | nil =>
          rw [get_mk, if_neg (lt_irrefl ch), if_neg (lt_irrefl ch)]
          exact hok
        | cons d rs =>
          rw [get_mk, if_neg (lt_irrefl ch), if_neg (lt_irrefl ch)]
          exact ihm (d :: rs) hm
      · rw [get_mk, if_neg (lt_asymm hgt), if_pos hgt]
        exact ihr (ch :: rest) hr

theorem allBST_get_head (node : Node) : ∀ (p : Char → Bool) (ch : Char)
    (rest : List Char), allBST p node = true →
    isComplete (_get node (ch :: rest)) = true → p ch = true := by
  induction node with
  | null => intro p ch rest _ h; simp [get_null, isComplete_null] at h
  | mk nc l m r f ihl ihm ihr =>
    intro p ch rest hall h
    simp only [allBST, Bool.and_eq_true] at hall
    rcases lt_trichotomy ch nc with hlt | heq | hgt
    · rw [get_mk, if_pos hlt] at h
      exact ihl p ch rest hall.1.2 h
    · subst heq
      exact hall.1.1
    · rw [get_mk, if_neg (lt_asymm hgt), if_pos hgt] at h
      exact ihr p ch rest hall.2 h

theorem get_append (node : Node) : ∀ (p q : List Char), p ≠ [] → q ≠ [] →
    _get node (p ++ q) =
      (match _get node p with
       | Node.null => Node.null
       | Node.mk _ _ mid _ _ => _get mid q) := by
  induction node with
  | null => intro p q _ _; simp [get_null]
  | mk nc l m r f ihl ihm ihr =>
    intro p q hp hq
    cases p with
    | nil => exact absurd rfl hp
    | cons ch rest =>
      rcases lt_trichotomy ch nc with hlt | heq | hgt
      · rw [List.cons_append, get_mk, if_pos hlt, get_mk, if_pos hlt]
        exact ihl (ch :: rest) q (by simp) hq
      · subst heq
        cases rest with
        | nil =>
          rw [List.cons_append, List.nil_append, get_mk,
            if_neg (lt_irrefl ch), if_neg (lt_irrefl ch), get_mk,
            if_neg (lt_irrefl ch), if_neg (lt_irrefl ch)]
          cases q with
          | nil => exact absurd rfl hq
          | cons d rs => rfl
        | cons c2 rest2 =>
          rw [List.cons_append, get_mk, if_neg (lt_irrefl ch),
            if_neg (lt_irrefl ch), get_mk, if_neg (lt_irrefl ch),
            if_neg (lt_irrefl ch)]
          have := ihm (c2 :: rest2) q (by simp) hq
          rw [List.cons_append] at this
          exact this
      · rw [List.cons_append, get_mk, if_neg (lt_asymm hgt), if_pos hgt,
          get_mk, if_neg (lt_asymm hgt), if_pos hgt]
        exact ihr (ch :: rest) q (by simp) hq

theorem collectAll_mem (node : Node) : ∀ (pre x : List Char),
    bstOk node = true →
    (x ∈ collectAll node pre ↔
      ∃ (ch : Char) (q : List Char), x = pre ++ ch :: q ∧
        isComplete (_get node (ch :: q)) = true) := by
  induction node with
  | null => intro pre x _; simp [collectAll, get_null, isComplete_null]
  | mk c l m r f ihl ihm ihr =>
    intro pre x hok
    simp only [bstOk, Bool.and_eq_true] at hok
    obtain ⟨⟨⟨⟨hal, har⟩, hbl⟩, hbm⟩, hbr⟩ := hok
    rw [collectAll]
    simp only [List.mem_append]
    constructor
    · rintro (((hx | hx) | hx) | hx)
      · cases hf : isTruthy f with
        | false => simp [hf] at hx
        | true =>
          simp only [hf, if_true, List.mem_singleton] at hx
          refine ⟨c, [], hx, ?_⟩
          rw [get_mk, if_neg (lt_irrefl c), if_neg (lt_irrefl c)]
          rw [isTruthy_eq] at hf
          exact hf
      · obtain ⟨ch, q, rfl, hcomp⟩ := (ihl pre x hbl).mp hx
        have hlt : ch < c :=
          of_decide_eq_true (allBST_get_head l _ ch q hal hcomp)
        refine ⟨ch, q, rfl, ?_⟩
        rw [get_mk, if_pos hlt]
        exact hcomp
      · obtain ⟨ch, q, hxeq, hcomp⟩ := (ihm (pre ++ [c]) x hbm).mp hx
        refine ⟨c, ch :: q, by simp [hxeq], ?_⟩
        rw [get_mk, if_neg (lt_irrefl c), if_neg (lt_irrefl c)]
        exact hcomp
      · obtain ⟨ch, q, rfl, hcomp⟩ := (ihr pre x hbr).mp hx
        have hgt : c < ch :=
          of_decide_eq_true (allBST_get_head r _ ch q har hcomp)
        refine ⟨ch, q, rfl, ?_⟩
        rw [get_mk, if_neg (lt_asymm hgt), if_pos hgt]
        exact hcomp
    · rintro ⟨ch, q, rfl, hcomp⟩
      rcases lt_trichotomy ch c with hlt | heq | hgt
      · rw [get_mk, if_pos hlt] at hcomp
        exact Or.inl (Or.inl (Or.inr ((ihl pre _ hbl).mpr ⟨ch, q, rfl, hcomp⟩)))
      · subst heq
        rw [get_mk, if_neg (lt_irrefl ch), if_neg (lt_irrefl ch)] at hcomp
        cases q with
        | nil =>
          refine Or.inl (Or.inl (Or.inl ?_))
          rw [isComplete_mk] at hcomp
          rw [isTruthy_eq, hcomp]
          simp
        | cons d rs =>
          refine Or.inl (Or.inr ?_)
          refine (ihm (pre ++ [ch]) _ hbm).mpr ⟨d, rs, by simp, hcomp⟩
      · rw [get_mk, if_neg (lt_asymm hgt), if_pos hgt] at hcomp
        exact Or.inr ((ihr pre _ hbr).mpr ⟨ch, q, rfl, hcomp⟩)

theorem getCompletions_mem (t : Trie) (pre s : List Char) (hp : pre ≠ [])
    (hok : bstOk t.root = true) :
    s ∈ getCompletions t pre none ↔
      isComplete (_get t.root s) = true ∧ pre <+: s := by
  rw [getCompletions_none_eq t pre hp]
  cases hg : _get t.root pre with
  | null =>
    show s ∈ ([] : List (List Char)) ↔
      isComplete (_get t.root s) = true ∧ pre <+: s
    simp only [List.not_mem_nil, false_iff]
    rintro ⟨hcomp, q, rfl⟩
    cases q with
    | nil =>
      rw [List.append_nil, hg] at hcomp
      simp [isComplete_null] at hcomp
    | cons d rs =>
      rw [get_append t.root pre (d :: rs) hp (by simp), hg] at hcomp
      simp [get_null, isComplete_null] at hcomp
  | mk c l m r f =>
    show s ∈ ((if isTruthy f then [pre] else []) ++ collectAll m pre) ↔
      isComplete (_get t.root s) = true ∧ pre <+: s
    have hbm : bstOk m = true := by
      have hbn := bstOk_get t.root pre hok
      rw [hg] at hbn
      simp only [bstOk, Bool.and_eq_true] at hbn
      exact hbn.1.2
    rw [List.mem_append, collectAll_mem m pre s hbm]
    constructor
    · rintro (hs | ⟨ch, q, rfl, hcomp⟩)
      · cases hf : isTruthy f with
        | false => simp [hf] at hs
        | true =>
          simp only [hf, if_true, List.mem_singleton] at hs
          refine ⟨?_, ?_⟩
          · rw [hs, hg, isComplete_mk]
            rw [isTruthy_eq] at hf
            exact hf
          · rw [hs]
      · constructor
        · rw [get_append t.root pre (ch :: q) hp (by simp), hg]
          exact hcomp
        · exact ⟨ch :: q, rfl⟩
    · rintro ⟨hcomp, q, rfl⟩
      cases q with
      | nil =>
        refine Or.inl ?_
        rw [List.append_nil, hg, isComplete_mk] at hcomp
        rw [isTruthy_eq, hcomp]
        simp
      | cons d rs =>
        refine Or.inr ?_
        rw [get_append t.root pre (d :: rs) hp (by simp), hg] at hcomp
        exact ⟨d, rs, rfl, hcomp⟩

theorem addCompletion_nil (t : Trie) : addCompletion t [] = t := rfl

theorem addCompletion_root (t : Trie) (c : Char) (rest : List Char) :
    (addCompletion t (c :: rest)).root = _put t.root c rest := rfl

theorem addCompletion_size (t : Trie) (c : Char) (rest : List Char) :
    (addCompletion t (c :: rest)).size =
      if isTruthy (contains t (c :: rest)) then t.size else t.size + 1 := rfl

theorem buildFrom_append (l : List (List Char)) (a : List Char) :
    buildFrom (l ++ [a]) = addCompletion (buildFrom l) a := by
  simp [buildFrom, List.foldl_append]

theorem stored_buildFrom : ∀ (l : List (List Char)), (∀ x ∈ l, x ≠ []) →
    ∀ (s : List Char), s ≠ [] →
    (isComplete (_get (buildFrom l).root s) = true ↔ s ∈ l) := by
  intro l
  induction l using List.reverseRecOn with
  | nil =>
    intro _ s _
    simp [buildFrom, emptyTrie, get_null, isComplete_null]
  | append_singleton l a ih =>
    intro h s hs
    have ha : a ≠ [] := h a (by simp)
    have hl : ∀ x ∈ l, x ≠ [] := fun x hx => h x (by simp [hx])
    rw [buildFrom_append]
    cases a with
    | nil => exact absurd rfl ha
    | cons c rest =>
      cases s with
      | nil => exact absurd rfl hs
      | cons c' rest' =>
        rw [addCompletion_root]
        by_cases hsa : (c' :: rest' : List Char) = c :: rest
        · rw [hsa]
          simp [get_put_self, List.mem_append]
        · rw [get_put_frame _ c rest c' rest' hsa,
            ih hl (c' :: rest') hs]
          simp [List.mem_append, hsa]

theorem bstOk_buildFrom : ∀ (l : List (List Char)),
    bstOk (buildFrom l).root = true := by
  intro l
  induction l using List.reverseRecOn with
  | nil => rfl
  | append_singleton l a ih =>
    rw [buildFrom_append]
    cases a with
    | nil => exact ih
    | cons c rest =>
      rw [addCompletion_root]
      exact bstOk_put _ c rest ih

theorem flagsOK_buildFrom : ∀ (l : List (List Char)),
    flagsOK (buildFrom l).root = true := by
  intro l
  induction l using List.reverseRecOn with
  | nil => rfl
  | append_singleton l a ih =>
    rw [buildFrom_append]
    cases a with
    | nil => exact ih
    | cons c rest =>
      rw [addCompletion_root]
      exact flagsOK_put _ c rest ih

theorem size_eq_count : ∀ (l : List (List Char)),
    (buildFrom l).size = completionCount (buildFrom l).root := by
  intro l
  induction l using List.reverseRecOn with
  | nil => rfl
  | append_singleton l a ih =>
    rw [buildFrom_append]
    cases a with
    | nil => exact ih
    | cons c rest =>
      rw [addCompletion_root, addCompletion_size, completionCount_put,
        isTruthy_contains]
      cases hc : isComplete (_get (buildFrom l).root (c :: rest)) <;>
        simp [ih, hc]

theorem size_toFinset : ∀ (l : List (List Char)), (∀ x ∈ l, x ≠ []) →
    (buildFrom l).size = l.toFinset.card := by
  intro l
  induction l using List.reverseRecOn with
  | nil => intro _; rfl
  | append_singleton l a ih =>
    intro h
    have ha : a ≠ [] := h a (by simp)
    have hl : ∀ x ∈ l, x ≠ [] := fun x hx => h x (by simp [hx])
    rw [buildFrom_append]
    cases a with
    | nil => exact absurd rfl ha
    | cons c rest =>
      rw [addCompletion_size, isTruthy_contains, ih hl, List.toFinset_append]
      have hins : l.toFinset ∪ ([(c :: rest)] : List (List Char)).toFinset =
          insert (c :: rest) l.toFinset := by
        simp [Finset.insert_eq, Finset.union_comm]
      rw [hins]
      by_cases hmem : (c :: rest : List Char) ∈ l
      · rw [(stored_buildFrom l hl _ (by simp)).mpr hmem]
        rw [Finset.insert_eq_self.mpr (List.mem_toFinset.mpr hmem)]
        simp
      · have hnot : isComplete (_get (buildFrom l).root (c :: rest)) = false := by
          rcases Bool.eq_false_or_eq_true
              (isComplete (_get (buildFrom l).root (c :: rest))) with h0 | h1
          · exact absurd ((stored_buildFrom l hl _ (by simp)).mp h0) hmem
          · exact h1
        rw [hnot]
        rw [Finset.card_insert_of_not_mem (fun hin =>
          hmem (List.mem_toFinset.mp hin))]
        simp

theorem perm_toFinset {α : Type} [DecidableEq α] {l1 l2 : List α}
    (h : l1.Perm l2) : l1.toFinset = l2.toFinset := by
  ext a
  simp [List.mem_toFinset, h.mem_iff]

/-- C1: the claim states that `getCompletions` output is strictly ascending
in lexical order because the traversal visits `left` before appending the
current node's own completion.  The code does the opposite: it pushes
`prefix + node.c` BEFORE recursing into `left` (lines 91-97 of the source),
contradicting both the spec and the source's own header comment
("Completions will be sorted in ascending lexical order").  Inserting "xb"
then "xa" and querying prefix "x" returns ["xb", "xa"], although
"xa" < "xb" lexically. -/
theorem c1_unsorted_output :
    getCompletions
        (addCompletion (addCompletion emptyTrie ['x', 'b']) ['x', 'a'])
        ['x'] none = [['x', 'b'], ['x', 'a']] ∧
      List.Lex (· < ·) ['x', 'a'] ['x', 'b'] :=
  ⟨by decide, List.Lex.cons (List.Lex.rel (by decide))⟩

/-- C2 counterexample: the claim quantifies over EVERY prefix `p`, but for
the empty prefix `getCompletions` returns `[]` by its explicit falsy-prefix
guard, although every stored string starts with the empty string: here "a"
is stored, "" is a prefix of "a", yet "a" is not in the result. -/
theorem c2_empty_prefix_cex :
    contains (addCompletion emptyTrie ['a']) ['a'] = some true ∧
      ([] : List Char) <+: ['a'] ∧
      ['a'] ∉ getCompletions (addCompletion emptyTrie ['a']) [] none :=
  ⟨by decide, ⟨['a'], rfl⟩, by decide⟩

/-- C2 (amended to non-empty prefixes): for every trie built by inserting
non-empty strings and every NON-EMPTY prefix `p`, the unlimited
`getCompletions p` returns exactly the stored strings that start with
`p`. -/
theorem c2_prefix_completeness (l : List (List Char)) (p s : List Char)
    (h : ∀ x ∈ l, x ≠ []) (hp : p ≠ []) :
    s ∈ getCompletions (buildFrom l) p none ↔ s ∈ l ∧ p <+: s := by
  rw [getCompletions_mem (buildFrom l) p s hp (bstOk_buildFrom l)]
  constructor
  · rintro ⟨hcomp, hpre⟩
    have hs : s ≠ [] := by
      rintro rfl
      rcases hpre with ⟨q, hq⟩
      exact hp (List.append_eq_nil.mp hq).1
    exact ⟨(stored_buildFrom l h s hs).mp hcomp, hpre⟩
  · rintro ⟨hmem, hpre⟩
    exact ⟨(stored_buildFrom l h s (h s hmem)).mpr hmem, hpre⟩

/-- C2 witness: in the trie storing "a" and "ab", the string "ab" is
returned for prefix "a" and indeed is a stored string extending "a". -/
theorem c2_prefix_completeness_witness :
    ['a', 'b'] ∈ getCompletions (buildFrom [['a'], ['a', 'b']]) ['a'] none ↔
      ['a', 'b'] ∈ [['a'], ['a', 'b']] ∧ ['a'] <+: ['a', 'b'] :=
  c2_prefix_completeness [['a'], ['a', 'b']] ['a'] ['a', 'b']
    (by decide) (by decide)

/-- C3 counterexample: the claim states `contains` returns `false` for
every never-inserted string INCLUDING the empty string.  But `contains("")`
descends with `prefix[0] = undefined`, for which all character comparisons
are false, so `_get` returns the root node itself and `contains` reports
the root's `isCompletion` flag: after inserting just "a" the root is the
completion node of "a", and `contains("")` returns `true`. -/
theorem c3_contains_empty_cex :
    contains (addCompletion emptyTrie ['a']) [] = some true ∧
      contains (addCompletion emptyTrie ['a']) [] ≠ some false :=
  ⟨by decide, by decide⟩

/-- C3 (amended): `contains` returns `true` for every inserted string; for
every never-inserted NON-EMPTY string it returns a falsy value, namely the
literal `false` when the descent finds no node and the JS `null` when it
finds an unmarked node; for the empty string the result is the root's
completion flag, which can be `true` even though "" was never inserted. -/
theorem c3_membership (l : List (List Char)) (s : List Char)
    (h : ∀ x ∈ l, x ≠ []) :
    (s ∈ l → contains (buildFrom l) s = some true) ∧
      (s ∉ l → s ≠ [] →
        (contains (buildFrom l) s = some false ∨
          contains (buildFrom l) s = none)) := by
  constructor
  · intro hmem
    exact (contains_true_iff _ s).mpr
      ((stored_buildFrom l h s (h s hmem)).mpr hmem)
  · intro hnot hs
    have hcomp : isComplete (_get (buildFrom l).root s) = false := by
      rcases Bool.eq_false_or_eq_true
          (isComplete (_get (buildFrom l).root s)) with h0 | h1
      · exact absurd ((stored_buildFrom l h s hs).mp h0) hnot
      · exact h1
    have hfl := flagsOK_get (buildFrom l).root s (flagsOK_buildFrom l)
    rw [contains]
    cases hg : _get (buildFrom l).root s with
    | null => exact Or.inl rfl
    | mk c lc mc rc f =>
      rw [hg] at hcomp hfl
      rw [isComplete_mk] at hcomp
      right
      cases f with
      | none => rfl
      | some b =>
        cases b
        · simp [flagsOK] at hfl
        · simp at hcomp

/-- C3 witness: the inserted string "a" is reported as contained. -/
theorem c3_membership_witness :
    contains (buildFrom [['a']]) ['a'] = some true :=
  (c3_membership [['a']] ['a'] (by decide)).1 (by decide)

/-- C4: for a trie built by inserting any permutation of a list of
non-empty strings, `size` equals the number of nodes whose `isCompletion`
flag is `true` and equals the number of distinct input strings; moreover
`addCompletion` of a non-empty string leaves `size` unchanged exactly when
the string is already (truthily) contained and increments it by one
otherwise. -/
theorem c4_size_accounting (l li : List (List Char)) (h : ∀ x ∈ l, x ≠ [])
    (hperm : li.Perm l) :
    (buildFrom li).size = completionCount (buildFrom li).root ∧
      (buildFrom li).size = l.toFinset.card ∧
      (∀ (t : Trie) (s : List Char), s ≠ [] →
        ((isTruthy (contains t s) = true →
            (addCompletion t s).size = t.size) ∧
          (isTruthy (contains t s) = false →
            (addCompletion t s).size = t.size + 1))) := by
  have hli : ∀ x ∈ li, x ≠ [] := fun x hx => h x (hperm.mem_iff.mp hx)
  refine ⟨size_eq_count li, ?_, ?_⟩
  · rw [size_toFinset li hli, perm_toFinset hperm]
  · intro t s hs
    cases s with
    | nil => exact absurd rfl hs
    | cons c rest =>
      constructor
      · intro hc
        rw [addCompletion_size, hc, if_pos rfl]
      · intro hc
        rw [addCompletion_size, hc]
        simp

/-- C4 witness: inserting a permutation of ["a","b","b"] yields size 2,
the number of distinct input strings. -/
theorem c4_size_accounting_witness :
    (buildFrom [['b'], ['a'], ['b']]).size =
      ([['a'], ['b'], ['b']] : List (List Char)).toFinset.card :=
  (c4_size_accounting [['a'], ['b'], ['b']] [['b'], ['a'], ['b']]
    (by decide) (by decide)).2.1

/-- C5: with a positive limit `k` and a non-empty prefix,
`getCompletions p k` returns at most `k` results, is a list-prefix of the
unlimited result, and is in fact exactly the first `k` entries of the
unlimited result, so no completion beyond the k-th is ever appended. -/
theorem c5_limit (t : Trie) (p : List Char) (k : Nat) (hp : p ≠ [])
    (hk : 1 ≤ k) :
    (getCompletions t p (some k)).length ≤ k ∧
      getCompletions t p (some k) <+: getCompletions t p none ∧
      getCompletions t p (some k) = (getCompletions t p none).take k := by
  have heq := getCompletions_some_eq t p k hk
  refine ⟨?_, ?_, heq⟩
  · rw [heq]
    exact List.length_take_le k _
  · rw [heq]
    exact ⟨(getCompletions t p none).drop k, List.take_append_drop k _⟩

/-- C5 witness at the trie storing "a" and "ab" with limit 1. -/
theorem c5_limit_witness :
    (getCompletions (buildFrom [['a'], ['a', 'b']]) ['a'] (some 1)).length ≤
        1 ∧
      getCompletions (buildFrom [['a'], ['a', 'b']]) ['a'] (some 1) <+:
        getCompletions (buildFrom [['a'], ['a', 'b']]) ['a'] none ∧
      getCompletions (buildFrom [['a'], ['a', 'b']]) ['a'] (some 1) =
        (getCompletions (buildFrom [['a'], ['a', 'b']]) ['a'] none).take 1 :=
  c5_limit (buildFrom [['a'], ['a', 'b']]) ['a'] 1 (by decide) (by decide)

/-- C6: re-inserting an already-contained string is a complete no-op — the
trie value is unchanged, hence every later `contains` and `getCompletions`
observation (any prefix, any limit) is unchanged. -/
theorem c6_idempotent (t : Trie) (s : List Char)
    (h : contains t s = some true) :
    addCompletion t s = t ∧
      (∀ s', contains (addCompletion t s) s' = contains t s') ∧
      (∀ (p : List Char) (lim : Option Nat),
        getCompletions (addCompletion t s) p lim = getCompletions t p lim) := by
  have hroot : addCompletion t s = t := by
    cases s with
    | nil => rfl
    | cons c rest =>
      have hput := put_of_complete t.root c rest ((contains_true_iff t _).mp h)
      have hsz : isTruthy (contains t (c :: rest)) = true := by
        rw [h]
        rfl
      show Trie.mk (_put t.root c rest)
          (if isTruthy (contains t (c :: rest)) then t.size
           else t.size + 1) = t
      rw [hput, hsz, if_pos rfl]
  exact ⟨hroot, fun s' => by rw [hroot], fun p lim => by rw [hroot]⟩

/-- C6 witness: adding "a" a second time returns the identical trie. -/
theorem c6_idempotent_witness :
    addCompletion (buildFrom [['a']]) ['a'] = buildFrom [['a']] :=
  (c6_idempotent (buildFrom [['a']]) ['a'] (by decide)).1

/-- C7: every trie reachable by construction and `addCompletion` of
non-empty strings satisfies the binary-search ordering invariant — at each
node all characters reachable through `left` without crossing a `mid` edge
(the "same depth" chain, as the spec's parenthetical states) are strictly
smaller than the node's character and all through `right` strictly
greater — and `_put` preserves the invariant on any tree. -/
theorem c7_bst_invariant (l : List (List Char)) (h : ∀ x ∈ l, x ≠ []) :
    bstOk (buildFrom l).root = true ∧
      (∀ (node : Node) (c : Char) (rest : List Char), bstOk node = true →
        bstOk (_put node c rest) = true) :=
  ⟨bstOk_buildFrom l, fun node c rest hok => bstOk_put node c rest hok⟩

/-- C7 witness on a concrete three-string trie. -/
theorem c7_bst_invariant_witness :
    bstOk (buildFrom [['b'], ['a', 'c'], ['c']]).root = true :=
  (c7_bst_invariant [['b'], ['a', 'c'], ['c']] (by decide)).1

/-- C8: the empty prefix (the JS falsy `""`, covering the absent-argument
case as well) always yields the empty result, whatever the trie holds and
whatever the limit. -/
theorem c8_empty_prefix (t : Trie) (lim : Option Nat) :
    getCompletions t [] lim = [] := rfl

/-- C9: a limit of `0` is falsy in the guard
`limit && completions.length == limit`, so `getCompletions p 0` returns the
full unlimited result set, exactly like an absent limit. -/
theorem c9_zero_limit (t : Trie) (p : List Char) (hp : p ≠ []) :
    getCompletions t p (some 0) = getCompletions t p none := by
  rw [getCompletions, getCompletions, if_neg hp, if_neg hp]
  cases hg : _get t.root p with
  | null => rfl
  | mk c l m r f =>
    cases m with
    | null => rfl
    | mk mc ml mm mr mf => exact collect_zero_eq _ p _

/-- C9 witness: limit 0 equals no limit on the trie storing "a", "ab". -/
theorem c9_zero_limit_witness :
    getCompletions (buildFrom [['a'], ['a', 'b']]) ['a'] (some 0) =
      getCompletions (buildFrom [['a'], ['a', 'b']]) ['a'] none :=
  c9_zero_limit (buildFrom [['a'], ['a', 'b']]) ['a'] (by decide)

/-- C10: on reachable tries `contains` returns the literal `false` exactly
when the descent finds no node, and returns the JS `null` whenever the
descent reaches an existing node whose `isCompletion` flag was never set
(the flag is never the literal `false`), so the function's range is
`true` / `false` / `null` rather than a strict boolean. -/
theorem c10_three_valued (l : List (List Char)) (s : List Char) :
    (contains (buildFrom l) s = some false ↔
      _get (buildFrom l).root s = Node.null) ∧
      (isComplete (_get (buildFrom l).root s) = false →
        _get (buildFrom l).root s ≠ Node.null →
        contains (buildFrom l) s = none) := by
  have hfl := flagsOK_get (buildFrom l).root s (flagsOK_buildFrom l)
  constructor
  · rw [contains]
    cases hg : _get (buildFrom l).root s with
    | null => simp
    | mk c lc mc rc f =>
      rw [hg] at hfl
      simp only [flagsOK, Bool.and_eq_true] at hfl
      have hne : f ≠ some false := by
        have hb := hfl.1.1.1
        simpa [bne_iff_ne] using hb
      constructor
      · intro hf
        exact absurd hf hne
      · intro hmk
        exact Node.noConfusion hmk
  · intro hcomp hne
    rw [contains]
    cases hg : _get (buildFrom l).root s with
    | null => exact absurd hg hne
    | mk c lc mc rc f =>
      rw [hg] at hcomp hfl
      rw [isComplete_mk] at hcomp
      cases f with
      | none => rfl
      | some b =>
        cases b
        · simp [flagsOK] at hfl
        · simp at hcomp

/-- C10 witness: the claim's own example — "ab" in a trie storing only
"abc" reaches an existing unmarked node, and `contains` returns `null`. -/
theorem c10_three_valued_witness :
    contains (buildFrom [['a', 'b', 'c']]) ['a', 'b'] = none :=
  (c10_three_valued [['a', 'b', 'c']] ['a', 'b']).2 (by decide) (by decide)

example : contains (buildFrom [['a'], ['a', 'b']]) ['a'] = some true := by decide

example : contains (buildFrom [['a', 'b', 'c']]) ['a', 'b'] = none := by decide

example : contains (buildFrom [['a']]) [] = some true := by decide

example :
    getCompletions (buildFrom [['a'], ['a', 'b'], ['b']]) ['a'] none =
      [['a'], ['a', 'b']] := by decide

example :
    getCompletions (addCompletion (addCompletion emptyTrie ['x', 'b'])
      ['x', 'a']) ['x'] none = [['x', 'b'], ['x', 'a']] := by decide

example : (buildFrom [['a'], ['a'], ['b']]).size = 2 := by decide

end Completer
